import Mathlib

/-!
Pyccel runtime support: integer modulo and the NumPy array bridge.

A shallow embedding of

* `pyc_modulo` from `pyccel/stdlib/math/pyc_math_c.h`, and
* `get_strides_and_shape_from_numpy_array`, `capsule_cleanup`, `to_pyarray` and the
  complex scalar conversions `PyComplex_to_Complex64`, `PyComplex_to_Complex128`,
  `Complex128_to_PyComplex`, `Complex64_to_NumpyComplex`
  from `pyccel/stdlib/cwrapper/cwrapper.c`.

Machine integers (`int64_t`, `npy_intp`) are mathematical integers together with
explicit range checks: an operation whose C behaviour is undefined (zero divisor,
unrepresentable result, read past the end of an array) yields `none`.
-/

namespace Pyccel

/-! ## 64-bit signed arithmetic -/

/-- Smallest `int64_t`. -/
def INT64_MIN : Int := -9223372036854775808

/-- Largest `int64_t`. -/
def INT64_MAX : Int := 9223372036854775807

/-- Representability as an `int64_t` (also `npy_intp` on the 64-bit targets). -/
def inInt64 (x : Int) : Prop := INT64_MIN ≤ x ∧ x ≤ INT64_MAX

instance (x : Int) : Decidable (inInt64 x) := by
  unfold inInt64; infer_instance

/-- C `a / b` on `int64_t`: truncation toward zero; undefined when `b` is zero or when
the quotient is not representable (`INT64_MIN / -1`). -/
def c_div (a b : Int) : Option Int :=
  if b = 0 then none
  else if a = INT64_MIN ∧ b = -1 then none
  else some (Int.tdiv a b)

/-- C `a % b` on `int64_t`: remainder of the truncating division; undefined exactly
when `a / b` is. -/
def c_rem (a b : Int) : Option Int :=
  if b = 0 then none
  else if a = INT64_MIN ∧ b = -1 then none
  else some (Int.tmod a b)

/-- C `a + b` on `int64_t`: undefined on overflow. -/
def c_add (a b : Int) : Option Int :=
  if inInt64 (a + b) then some (a + b) else none

/-- C `a * b` on `int64_t`: undefined on overflow. -/
def c_mul (a b : Int) : Option Int :=
  if inInt64 (a * b) then some (a * b) else none

/-! ## `pyc_modulo` -/

/-- Embedding of
```
int64_t modulo = a % b;
if(!((a < 0) ^ (b < 0)) || modulo == 0) return modulo;
else return modulo + b;
```
-/
def pyc_modulo (a b : Int) : Option Int :=
  match c_rem a b with
  | none => none
  | some modulo =>
    if (!(xor (decide (a < 0)) (decide (b < 0)))) || modulo == 0 then some modulo
    else c_add modulo b

/-- The floor of the exact quotient `a / b`, computed over the rationals. -/
def floordiv (a b : Int) : Int := Int.floor ((a : ℚ) / (b : ℚ))

/-! ## Host runtime objects (NumPy / CPython) -/

/-- NumPy layout flag `NPY_ARRAY_C_CONTIGUOUS` (row-major-contiguous). -/
def NPY_ARRAY_C_CONTIGUOUS : Nat := 0x0001

/-- NumPy layout flag `NPY_ARRAY_F_CONTIGUOUS` (column-major-contiguous). -/
def NPY_ARRAY_F_CONTIGUOUS : Nat := 0x0002

/-- NumPy flag `NPY_ARRAY_WRITEABLE`. -/
def NPY_ARRAY_WRITEABLE : Nat := 0x0400

/-- Release functions that can be registered with a capsule (values of the C type
`PyCapsule_Destructor` occurring in this file). -/
inductive Destructor where
  | capsule_cleanup
  deriving DecidableEq

/-- A `PyCapsule`: the ownership-registration handle of the host runtime. It records
a non-null raw pointer (the identity of a memory block), an optional name and an
optional release function. -/
structure PyCapsule where
  pointer : Nat
  name : Option String
  destructor : Option Destructor
  deriving DecidableEq

/-- Objects an array's `base` may refer to: a capsule, or some other managed object
(for a view, the parent array), identified by its address. -/
inductive BaseObject where
  | capsule (c : PyCapsule)
  | object (addr : Nat)
  deriving DecidableEq

/-- The fields of a `PyArrayObject` read or written by the bridge.
`dimensions` is what `PyArray_SHAPE` points to, `strides` what `PyArray_STRIDES`
points to (byte strides), `itemsize` is `PyArray_ITEMSIZE`, `base` is `PyArray_BASE`
(`none` for a null base) and `data` identifies the memory block of the elements. -/
structure PyArrayObject where
  nd : Nat
  dimensions : List Int
  strides : List Int
  itemsize : Int
  flags : Nat
  base : Option BaseObject
  data : Nat
  deriving DecidableEq

/-- Macro `PyArray_CHKFLAGS(a, flags)`: all the given flag bits are set. -/
def PyArray_CHKFLAGS (a : PyArrayObject) (flags : Nat) : Bool :=
  (a.flags &&& flags) == flags

/-- Product of the non-zero extents, the quantity whose byte size the host bounds when
it creates an array. -/
def nonzero_extent_product (dims : List Int) : Int :=
  (dims.filter (fun d => d ≠ 0)).prod

/-- Arrays the host runtime can hand to the bridge: `nd` extents and `nd` byte strides,
no negative extent, an element of one of the numeric kinds (at least one byte), and a
total byte size representable as `npy_intp`. -/
def WellFormed (a : PyArrayObject) : Prop :=
  a.dimensions.length = a.nd ∧ a.strides.length = a.nd ∧ 1 ≤ a.itemsize ∧
  (∀ d ∈ a.dimensions, 0 ≤ d) ∧
  a.itemsize * nonzero_extent_product a.dimensions ≤ INT64_MAX

instance (a : PyArrayObject) : Decidable (WellFormed a) := by
  unfold WellFormed; infer_instance

/-! ## `get_strides_and_shape_from_numpy_array` -/

/-- The loop of the branch `base == NULL`, with `k` iterations left at index `i`:
```
for (int i = 0; i < nd; ++i) { shape[i] = np_shape[i]; strides[i] = 1; }
```
Returns the entries written to `shape[i..]` and `strides[i..]`. -/
def owned_loop (np_shape : List Int) : Nat → Nat → Option (List Int × List Int)
  | 0, _ => some ([], [])
  | k + 1, i =>
    match np_shape[i]? with
    | none => none
    | some s =>
      match owned_loop np_shape k (i + 1) with
      | none => none
      | some (shape, strides) => some (s :: shape, 1 :: strides)

/-- The body shared by the two loops over a view, at index `i`:
```
shape[i] = np_shape[i];
strides[i] = np_strides[i] / current_stride;
current_stride *= shape[i];
```
Returns `(shape[i], strides[i], current_stride)` after the body. -/
def view_body (np_shape np_strides : List Int) (i : Nat) (current_stride : Int) :
    Option (Int × Int × Int) :=
  match np_shape[i]?, np_strides[i]? with
  | some s, some b =>
    match c_div b current_stride with
    | none => none
    | some q =>
      match c_mul current_stride s with
      | none => none
      | some c => some (s, q, c)
  | _, _ => none

/-- The loop of the branch taken when `NPY_ARRAY_C_CONTIGUOUS` is set,
`for (int i = nd-1; i >= 0; --i)`, with indices `n-1, …, 0` still to visit; `shape`
and `strides` hold the entries already written (those of the indices `≥ n`). -/
def contiguous_loop (np_shape np_strides : List Int) :
    Nat → Int → List Int → List Int → Option (List Int × List Int)
  | 0, _, shape, strides => some (shape, strides)
  | n + 1, current_stride, shape, strides =>
    match view_body np_shape np_strides n current_stride with
    | none => none
    | some (s, q, c) => contiguous_loop np_shape np_strides n c (s :: shape) (q :: strides)

/-- The loop of the branch taken when `NPY_ARRAY_C_CONTIGUOUS` is not set,
`for (int i = 0; i < nd; ++i)`, with `k` iterations left at index `i`. Returns the
entries written to `shape[i..]` and `strides[i..]`. -/
def strided_loop (np_shape np_strides : List Int) :
    Nat → Nat → Int → Option (List Int × List Int)
  | 0, _, _ => some ([], [])
  | k + 1, i, current_stride =>
    match view_body np_shape np_strides i current_stride with
    | none => none
    | some (s, q, c) =>
      match strided_loop np_shape np_strides k (i + 1) c with
      | none => none
      | some (shape, strides) => some (s :: shape, q :: strides)

/-- Embedding of `get_strides_and_shape_from_numpy_array`: the `nd` entries written to
`shape[]` and to `strides[]`, or `none` when the C code has undefined behaviour. -/
def get_strides_and_shape_from_numpy_array (a : PyArrayObject) :
    Option (List Int × List Int) :=
  match a.base with
  | none => owned_loop a.dimensions a.nd 0
  | some _ =>
    if PyArray_CHKFLAGS a NPY_ARRAY_C_CONTIGUOUS then
      contiguous_loop a.dimensions a.strides a.nd a.itemsize [] []
    else
      strided_loop a.dimensions a.strides a.nd 0 a.itemsize

/-- The divisors used by the ascending loop: the value of `current_stride` at each
division, in index order (same recursion as `strided_loop`). -/
def strided_divisors (np_shape np_strides : List Int) : Nat → Nat → Int → Option (List Int)
  | 0, _, _ => some []
  | k + 1, i, current_stride =>
    match view_body np_shape np_strides i current_stride with
    | none => none
    | some (_, _, c) =>
      match strided_divisors np_shape np_strides k (i + 1) c with
      | none => none
      | some ds => some (current_stride :: ds)

/-- The divisors used by the descending loop: the value of `current_stride` at each
division, in index order (same recursion as `contiguous_loop`). -/
def contiguous_divisors (np_shape np_strides : List Int) :
    Nat → Int → List Int → Option (List Int)
  | 0, _, ds => some ds
  | n + 1, current_stride, ds =>
    match view_body np_shape np_strides n current_stride with
    | none => none
    | some (_, _, c) => contiguous_divisors np_shape np_strides n c (current_stride :: ds)

/-- The divisor of the division `np_strides[i] / current_stride` for each index `i` of
a view, or `none` when the C code has undefined behaviour. -/
def view_divisors (a : PyArrayObject) : Option (List Int) :=
  if PyArray_CHKFLAGS a NPY_ARRAY_C_CONTIGUOUS then
    contiguous_divisors a.dimensions a.strides a.nd a.itemsize []
  else
    strided_divisors a.dimensions a.strides a.nd 0 a.itemsize

/-! ## `capsule_cleanup` and `to_pyarray` -/

/-- Allocation-tracking heap: the memory blocks currently allocated. -/
abbrev Heap := List Nat

/-- C `free(p)`: a null pointer is ignored; releasing a block that is not allocated is
undefined. -/
def free (p : Option Nat) (h : Heap) : Option Heap :=
  match p with
  | none => some h
  | some m => if m ∈ h then some (h.erase m) else none

/-- Host `PyCapsule_GetPointer(capsule, name)`: the stored pointer when the names agree,
null otherwise. -/
def PyCapsule_GetPointer (capsule : PyCapsule) (name : Option String) : Option Nat :=
  if capsule.name = name then some capsule.pointer else none

/-- Host `PyCapsule_New(pointer, name, destructor)`. -/
def PyCapsule_New (pointer : Nat) (name : Option String) (destructor : Option Destructor) :
    PyCapsule :=
  { pointer := pointer, name := name, destructor := destructor }

/-- Embedding of
```
void *memory = PyCapsule_GetPointer(capsule, NULL);
free(memory);
```
-/
def capsule_cleanup (capsule : PyCapsule) (h : Heap) : Option Heap :=
  free (PyCapsule_GetPointer capsule none) h

/-- Calling a registered release function on its capsule. -/
def Destructor.call : Destructor → PyCapsule → Heap → Option Heap
  | .capsule_cleanup => Pyccel.capsule_cleanup

/-- The host runs the release function of a capsule, if any, when the capsule is
destroyed. -/
def PyCapsule.destroy (c : PyCapsule) (h : Heap) : Option Heap :=
  match c.destructor with
  | none => some h
  | some d => d.call c h

/-- The choices of the host's array constructor that the bridge does not control: the
element size of a type number (`PyArray_DescrFromType(typenum)->elsize`) and the byte
strides chosen for `nd`, the extents, the element size and the requested flags when the
constructor is given null strides. -/
structure Host where
  elsize : Nat → Int
  fill_strides : Nat → List Int → Int → Nat → List Int

/-- Host `PyArray_NewFromDescr(&PyArray_Type, PyArray_DescrFromType(typenum), nd, dims,
NULL, data, flags, NULL)`: a new array over `data` with a null base. -/
def PyArray_NewFromDescr (host : Host) (typenum nd : Nat) (dims : List Int) (data : Nat)
    (flags : Nat) : PyArrayObject :=
  { nd := nd, dimensions := dims,
    strides := host.fill_strides nd dims (host.elsize typenum) flags,
    itemsize := host.elsize typenum, flags := flags, base := none, data := data }

/-- Host `PyArray_SetBaseObject(arr, base)`. -/
def PyArray_SetBaseObject (arr : PyArrayObject) (base : BaseObject) : PyArrayObject :=
  { arr with base := some base }

/-- The local `FLAGS` of `to_pyarray`:
```
if (nd == 1) FLAGS = NPY_ARRAY_F_CONTIGUOUS | NPY_ARRAY_C_CONTIGUOUS | NPY_ARRAY_WRITEABLE;
else if (c_order) FLAGS = NPY_ARRAY_C_CONTIGUOUS | NPY_ARRAY_WRITEABLE;
else FLAGS = NPY_ARRAY_F_CONTIGUOUS | NPY_ARRAY_WRITEABLE;
```
-/
def to_pyarray_FLAGS (nd : Nat) (c_order : Bool) : Nat :=
  if nd = 1 then NPY_ARRAY_F_CONTIGUOUS ||| NPY_ARRAY_C_CONTIGUOUS ||| NPY_ARRAY_WRITEABLE
  else if c_order then NPY_ARRAY_C_CONTIGUOUS ||| NPY_ARRAY_WRITEABLE
  else NPY_ARRAY_F_CONTIGUOUS ||| NPY_ARRAY_WRITEABLE

/-- Embedding of `to_pyarray`. The copy loop `npy_shape[i] = shape[i]` for `i < nd`
reads the first `nd` entries of `shape` and is undefined when there are fewer. -/
def to_pyarray (host : Host) (nd typenum data : Nat) (shape : List Int)
    (c_order release_memory : Bool) : Option PyArrayObject :=
  if nd ≤ shape.length then
    let npy_shape := shape.take nd
    let arr := PyArray_NewFromDescr host typenum nd npy_shape data (to_pyarray_FLAGS nd c_order)
    if release_memory then
      let base := PyCapsule_New data none (some Destructor.capsule_cleanup)
      some (PyArray_SetBaseObject arr (BaseObject.capsule base))
    else some arr
  else none

/-! ## Complex scalar conversion -/

/-- The value of `current_stride` when the loops over a view reach index `i`, provided
no step before was undefined: the element size times the extents already traversed
(those after `i` in the descending loop, those before `i` in the ascending loop). -/
def current_stride_at (a : PyArrayObject) (i : Nat) : Int :=
  a.itemsize *
    (if PyArray_CHKFLAGS a NPY_ARRAY_C_CONTIGUOUS then (a.dimensions.drop (i + 1)).prod
     else (a.dimensions.take i).prod)

/-- Dense row-major byte strides of a shape. -/
def row_major_strides (dims : List Int) (itemsize : Int) : List Int :=
  (List.range dims.length).map (fun i => itemsize * (dims.drop (i + 1)).prod)

/-- Dense column-major byte strides of a shape. -/
def column_major_strides (dims : List Int) (itemsize : Int) : List Int :=
  (List.range dims.length).map (fun i => itemsize * (dims.take i).prod)

/-- A host with 8-byte elements that lays new arrays out densely, column-major exactly
when only the column-major flag is requested. -/
def dense_host : Host :=
  { elsize := fun _ => 8,
    fill_strides := fun _ dims itemsize flags =>
      if (flags &&& (NPY_ARRAY_C_CONTIGUOUS ||| NPY_ARRAY_F_CONTIGUOUS)) == NPY_ARRAY_F_CONTIGUOUS
      then column_major_strides dims itemsize else row_major_strides dims itemsize }

/-- A view of a column-major 2 × 3 array of 8-byte elements (byte strides 8 and 16); it
is column-major-contiguous and not row-major-contiguous. -/
abbrev column_major_view : PyArrayObject :=
  { nd := 2, dimensions := [2, 3], strides := [8, 16], itemsize := 8,
    flags := 0x0502, base := some (BaseObject.object 1), data := 2 }

/-- The slice `x[3:4, :4]` of a row-major 10 × 8 array `x` of 8-byte elements: shape
1 × 4, byte strides 64 and 8. NumPy marks it contiguous (in both orders), since the
stride of an extent-1 dimension is irrelevant to contiguity. -/
abbrev single_row_view : PyArrayObject :=
  { nd := 2, dimensions := [1, 4], strides := [64, 8], itemsize := 8,
    flags := 0x0503, base := some (BaseObject.object 1), data := 2 }

/-- The empty slice `x[:, :0]` of a row-major 3 × 4 array `x` of 8-byte elements: shape
3 × 0, byte strides 32 and 8. NumPy marks every empty array contiguous in both orders. -/
abbrev empty_slice_view : PyArrayObject :=
  { nd := 2, dimensions := [3, 0], strides := [32, 8], itemsize := 8,
    flags := 0x0503, base := some (BaseObject.object 1), data := 2 }

/-- A dense row-major 3 × 4 array of 8-byte elements that owns its buffer. -/
abbrev owned_array : PyArrayObject :=
  { nd := 2, dimensions := [3, 4], strides := [32, 8], itemsize := 8,
    flags := 0x0505, base := none, data := 2 }

/-- A view of a dense row-major 3 × 4 array of 8-byte elements. -/
abbrev row_major_view : PyArrayObject :=
  { nd := 2, dimensions := [3, 4], strides := [32, 8], itemsize := 8,
    flags := 0x0501, base := some (BaseObject.object 1), data := 2 }

end Pyccel

/-! ## Theorems: `pyc_modulo` -/

namespace Pyccel

/-- The truncating remainder changes sign with the dividend. -/
theorem tmod_neg_left (a b : Int) : (-a).tmod b = -(a.tmod b) := by
  have h1 := Int.tmod_def (-a) b
  have h2 := Int.tmod_def a b
  rw [Int.neg_tdiv] at h1
  rw [h1, h2]; ring

/-- Range of the truncating remainder for a positive divisor. -/
theorem tmod_bounds_pos (a b : Int) (hb : 0 < b) :
    (0 ≤ a → 0 ≤ a.tmod b ∧ a.tmod b < b) ∧ (a < 0 → -b < a.tmod b ∧ a.tmod b ≤ 0) := by
  constructor
  · intro ha
    exact ⟨Int.tmod_nonneg b ha, Int.tmod_lt_of_pos a hb⟩
  · intro ha
    have h := tmod_neg_left (-a) b
    rw [neg_neg] at h
    have h1 : 0 ≤ (-a).tmod b := Int.tmod_nonneg b (by omega)
    have h2 : (-a).tmod b < b := Int.tmod_lt_of_pos (-a) hb
    omega

/-- Range of the truncating remainder for a negative divisor. -/
theorem tmod_bounds_neg (a b : Int) (hb : b < 0) :
    (0 ≤ a → 0 ≤ a.tmod b ∧ a.tmod b < -b) ∧ (a < 0 → b < a.tmod b ∧ a.tmod b ≤ 0) := by
  have h := tmod_bounds_pos a (-b) (by omega)
  rw [Int.tmod_neg] at h
  constructor
  · intro ha; exact h.1 ha
  · intro ha; have := h.2 ha; omega

/-- A quotient `q` with a remainder `m` between `0` and `b` is the floor of `a / b`. -/
theorem floordiv_eq (a b q m : Int) (h : a = b * q + m)
    (hm : (0 ≤ m ∧ m < b) ∨ (b < m ∧ m ≤ 0)) : floordiv a b = q := by
  unfold floordiv
  rw [Int.floor_eq_iff]
  have hb : b ≠ 0 := by omega
  have hbq : (b : ℚ) ≠ 0 := by exact_mod_cast hb
  have e : (a : ℚ) / b = q + m / b := by
    rw [h]; push_cast; field_simp; ring
  rw [e]
  rcases hm with ⟨h1, h2⟩ | ⟨h1, h2⟩
  · have hbpos : (0 : ℚ) < b := by exact_mod_cast (lt_of_le_of_lt h1 h2)
    have h1' : (0 : ℚ) ≤ m := by exact_mod_cast h1
    have h2' : (m : ℚ) < b := by exact_mod_cast h2
    constructor
    · have : (0 : ℚ) ≤ m / b := div_nonneg h1' hbpos.le
      linarith
    · have : (m : ℚ) / b < 1 := (div_lt_one hbpos).2 h2'
      linarith
  · have hbneg : (b : ℚ) < 0 := by exact_mod_cast (lt_of_lt_of_le h1 h2)
    have h1' : (b : ℚ) < m := by exact_mod_cast h1
    have h2' : (m : ℚ) ≤ 0 := by exact_mod_cast h2
    constructor
    · have : (0 : ℚ) ≤ m / b := div_nonneg_of_nonpos h2' hbneg.le
      linarith
    · have : (m : ℚ) / b < 1 := by
        rw [div_lt_one_of_neg hbneg]; exact h1'
      linarith

/-- C1 (as stated, refuted): at `a = INT64_MIN`, `b = -1` the divisor is non-zero, yet
`a % b` is undefined in C (the quotient `2^63` is not an `int64_t`), so `pyc_modulo`
yields no value there. -/
theorem pyc_modulo_min_neg_one_undefined :
    inInt64 INT64_MIN ∧ inInt64 (-1) ∧ (-1 : Int) ≠ 0 ∧ pyc_modulo INT64_MIN (-1) = none := by
  decide

/-- C1 (amended): for all `int64_t` values `a` and `b` with `b ≠ 0`, other than the pair
`a = INT64_MIN`, `b = -1`, `pyc_modulo a b` returns a value `m` that is `0` or has the sign
of `b`, and `a = b * floordiv a b + m`, where `floordiv` is the floor of the exact
quotient. -/
theorem pyc_modulo_floored (a b : Int) (ha : inInt64 a) (hb : inInt64 b) (hb0 : b ≠ 0)
    (hq : ¬ (a = INT64_MIN ∧ b = -1)) :
    ∃ m, pyc_modulo a b = some m ∧ inInt64 m ∧
      (m = 0 ∨ (0 < m ∧ 0 < b) ∨ (m < 0 ∧ b < 0)) ∧
      a = b * floordiv a b + m := by
  have hdef := Int.tmod_def a b
  have hrem : c_rem a b = some (a.tmod b) := by
    unfold c_rem; rw [if_neg hb0, if_neg hq]
  unfold inInt64 INT64_MIN INT64_MAX at ha hb
  unfold pyc_modulo
  rw [hrem]
  rcases lt_or_gt_of_ne hb0 with hneg | hpos
  · have hbd := tmod_bounds_neg a b hneg
    by_cases ha0 : a < 0
    · obtain ⟨h1, h2⟩ := hbd.2 ha0
      refine ⟨a.tmod b, ?_, ?_, ?_, ?_⟩
      · simp [ha0, hneg]
      · unfold inInt64 INT64_MIN INT64_MAX; omega
      · omega
      · rw [floordiv_eq a b (a.tdiv b) (a.tmod b) (by rw [hdef]; ring) (Or.inr ⟨h1, h2⟩)]
        rw [hdef]; ring
    · obtain ⟨h1, h2⟩ := hbd.1 (by omega)
      by_cases hz : a.tmod b = 0
      · refine ⟨a.tmod b, ?_, ?_, ?_, ?_⟩
        · simp [hz]
        · unfold inInt64 INT64_MIN INT64_MAX; omega
        · omega
        · rw [floordiv_eq a b (a.tdiv b) (a.tmod b) (by rw [hdef]; ring)
            (Or.inr ⟨by omega, by omega⟩)]
          rw [hdef]; ring
      · refine ⟨a.tmod b + b, ?_, ?_, ?_, ?_⟩
        · have hin : inInt64 (a.tmod b + b) := by
            unfold inInt64 INT64_MIN INT64_MAX; omega
          simp [ha0, hneg, hz, c_add, hin]
        · unfold inInt64 INT64_MIN INT64_MAX; omega
        · omega
        · rw [floordiv_eq a b (a.tdiv b - 1) (a.tmod b + b) (by rw [hdef]; ring)
            (Or.inr ⟨by omega, by omega⟩)]
          rw [hdef]; ring
  · have hbd := tmod_bounds_pos a b hpos
    by_cases ha0 : a < 0
    · obtain ⟨h1, h2⟩ := hbd.2 ha0
      by_cases hz : a.tmod b = 0
      · refine ⟨a.tmod b, ?_, ?_, ?_, ?_⟩
        · simp [hz]
        · unfold inInt64 INT64_MIN INT64_MAX; omega
        · omega
        · rw [floordiv_eq a b (a.tdiv b) (a.tmod b) (by rw [hdef]; ring)
            (Or.inl ⟨by omega, by omega⟩)]
          rw [hdef]; ring
      · refine ⟨a.tmod b + b, ?_, ?_, ?_, ?_⟩
        · have hin : inInt64 (a.tmod b + b) := by
            unfold inInt64 INT64_MIN INT64_MAX; omega
          have hnb : ¬ b < 0 := by omega
          simp [ha0, hnb, hz, c_add, hin]
        · unfold inInt64 INT64_MIN INT64_MAX; omega
        · omega
        · rw [floordiv_eq a b (a.tdiv b - 1) (a.tmod b + b) (by rw [hdef]; ring)
            (Or.inl ⟨by omega, by omega⟩)]
          rw [hdef]; ring
    · obtain ⟨h1, h2⟩ := hbd.1 (by omega)
      refine ⟨a.tmod b, ?_, ?_, ?_, ?_⟩
      · have hnb : ¬ b < 0 := by omega
        simp [ha0, hnb]
      · unfold inInt64 INT64_MIN INT64_MAX; omega
      · omega
      · rw [floordiv_eq a b (a.tdiv b) (a.tmod b) (by rw [hdef]; ring) (Or.inl ⟨h1, h2⟩)]
        rw [hdef]; ring

/-- C1 (amended), instance `a = -7`, `b = 2`. -/
theorem pyc_modulo_floored_witness :
    (inInt64 (-7) ∧ inInt64 2 ∧ (2 : Int) ≠ 0 ∧ ¬ ((-7 : Int) = INT64_MIN ∧ (2 : Int) = -1)) ∧
    ∃ m, pyc_modulo (-7) 2 = some m ∧ inInt64 m ∧
      (m = 0 ∨ (0 < m ∧ 0 < (2 : Int)) ∨ (m < 0 ∧ (2 : Int) < 0)) ∧
      (-7 : Int) = 2 * floordiv (-7) 2 + m :=
  ⟨by decide, pyc_modulo_floored (-7) 2 (by decide) (by decide) (by decide) (by decide)⟩

end Pyccel

namespace Pyccel

/-- A product of extents that are all at least one is at least one. -/
theorem one_le_prod (l : List Int) (h : ∀ d ∈ l, 1 ≤ d) : 1 ≤ l.prod := by
  induction l with
  | nil => simp
  | cons x xs ih =>
    have hx : 1 ≤ x := h x (List.mem_cons_self x xs)
    have hxs : 1 ≤ xs.prod := ih (fun d hd => h d (List.mem_cons_of_mem x hd))
    rw [List.prod_cons]
    nlinarith

/-- The owned-array loop copies the extents and writes `1` into every stride. -/
theorem owned_loop_spec (dims : List Int) :
    ∀ k i, i + k ≤ dims.length →
      owned_loop dims k i = some ((dims.drop i).take k, List.replicate k 1) := by
  intro k
  induction k with
  | zero => intro i _; simp [owned_loop]
  | succ k ih =>
    intro i h
    have hi : i < dims.length := by omega
    have e := ih (i + 1) (by omega)
    rw [owned_loop, List.getElem?_eq_getElem hi]
    simp only [e]
    rw [List.drop_eq_getElem_cons hi, List.take_succ_cons, List.replicate_succ]

/-- One execution of the loop body of a view with a positive `current_stride`. -/
theorem view_body_ok (dims bs : List Int) (i : Nat) (cur s b : Int)
    (hs : dims[i]? = some s) (hb : bs[i]? = some b) (hcur : 1 ≤ cur)
    (hin : inInt64 (cur * s)) :
    view_body dims bs i cur = some (s, Int.tdiv b cur, cur * s) := by
  have h0 : cur ≠ 0 := by omega
  have h1 : ¬ (b = INT64_MIN ∧ cur = -1) := by omega
  simp [view_body, hs, hb, c_div, c_mul, h0, h1, hin]

end Pyccel

namespace Pyccel

/-- The ascending loop over a view whose extents are all at least one: every division
is defined and `strides[i+j]` is the byte stride divided by `current_stride` times the
extents of the indices `i, …, i+j-1`. -/
theorem strided_loop_spec (dims bs : List Int) (hd : ∀ d ∈ dims, 1 ≤ d) :
    ∀ k i cur, i + k = dims.length → i + k = bs.length → 1 ≤ cur →
      cur * (dims.drop i).prod ≤ INT64_MAX →
      ∃ st, strided_loop dims bs k i cur = some (dims.drop i, st) ∧ st.length = k ∧
        ∀ j, j < k →
          st[j]? = some (Int.tdiv (bs.getD (i + j) 0) (cur * ((dims.drop i).take j).prod)) := by
  intro k
  induction k with
  | zero =>
    intro i cur h1 _ _ _
    refine ⟨[], ?_, rfl, ?_⟩
    · have : dims.drop i = [] := List.drop_eq_nil_of_le (by omega)
      simp [strided_loop, this]
    · intro j hj; omega
  | succ k ih =>
    intro i cur h1 h2 hcur hmax
    have hi : i < dims.length := by omega
    have hi2 : i < bs.length := by omega
    have hdrop := List.drop_eq_getElem_cons hi
    have hdi : 1 ≤ dims[i] := hd _ (List.getElem_mem hi)
    have hrest : 1 ≤ (dims.drop (i + 1)).prod :=
      one_le_prod _ (fun d hm => hd d (List.mem_of_mem_drop hm))
    rw [hdrop, List.prod_cons] at hmax
    have hmax2 : cur * dims[i] * (dims.drop (i + 1)).prod ≤ INT64_MAX := by
      rw [mul_assoc]; exact hmax
    have hc1 : 1 ≤ cur * dims[i] := by nlinarith
    have hle : cur * dims[i] ≤ INT64_MAX := by nlinarith
    have hin : inInt64 (cur * dims[i]) := by
      unfold inInt64 INT64_MIN; constructor <;> omega
    have hbody := view_body_ok dims bs i cur dims[i] bs[i]
      (List.getElem?_eq_getElem hi) (List.getElem?_eq_getElem hi2) hcur hin
    obtain ⟨st, hst, hlen, hspec⟩ := ih (i + 1) (cur * dims[i]) (by omega) (by omega) hc1 hmax2
    refine ⟨Int.tdiv bs[i] cur :: st, ?_, by simp [hlen], ?_⟩
    · rw [strided_loop, hbody]
      simp only [hst]
      rw [hdrop]
    · intro j hj
      rw [hdrop]
      cases j with
      | zero =>
        simp [List.getD_eq_getElem?_getD, List.getElem?_eq_getElem hi2]
      | succ j =>
        have := hspec j (by omega)
        rw [List.getElem?_cons_succ, this, List.take_succ_cons, List.prod_cons]
        have e : i + 1 + j = i + (j + 1) := by omega
        rw [e, mul_assoc]

/-- The descending loop over a view whose extents are all at least one: every division
is defined and `strides[j]` is the byte stride divided by `current_stride` times the
extents of the indices `j+1, …, n-1`. -/
theorem contiguous_loop_spec (dims bs : List Int) (hd : ∀ d ∈ dims, 1 ≤ d) :
    ∀ n cur sh st, n ≤ dims.length → n ≤ bs.length → 1 ≤ cur →
      cur * (dims.take n).prod ≤ INT64_MAX →
      ∃ st', contiguous_loop dims bs n cur sh st = some (dims.take n ++ sh, st' ++ st) ∧
        st'.length = n ∧
        ∀ j, j < n →
          st'[j]? = some (Int.tdiv (bs.getD j 0) (cur * ((dims.take n).drop (j + 1)).prod)) := by
  intro n
  induction n with
  | zero =>
    intro cur sh st _ _ _ _
    refine ⟨[], ?_, rfl, ?_⟩
    · simp [contiguous_loop]
    · intro j hj; omega
  | succ n ih =>
    intro cur sh st h1 h2 hcur hmax
    have hi : n < dims.length := by omega
    have hi2 : n < bs.length := by omega
    have htake : dims.take (n + 1) = dims.take n ++ [dims[n]] := by
      rw [List.take_succ, List.getElem?_eq_getElem hi]; rfl
    have hdi : 1 ≤ dims[n] := hd _ (List.getElem_mem hi)
    have hrest : 1 ≤ (dims.take n).prod :=
      one_le_prod _ (fun d hm => hd d (List.mem_of_mem_take hm))
    rw [htake, List.prod_append, List.prod_singleton] at hmax
    have hmax2 : cur * dims[n] * (dims.take n).prod ≤ INT64_MAX := by
      have e : cur * dims[n] * (dims.take n).prod = cur * ((dims.take n).prod * dims[n]) := by
        ring
      rw [e]; exact hmax
    have hc1 : 1 ≤ cur * dims[n] := by nlinarith
    have hle : cur * dims[n] ≤ INT64_MAX := by nlinarith
    have hin : inInt64 (cur * dims[n]) := by
      unfold inInt64 INT64_MIN; constructor <;> omega
    have hbody := view_body_ok dims bs n cur dims[n] bs[n]
      (List.getElem?_eq_getElem hi) (List.getElem?_eq_getElem hi2) hcur hin
    obtain ⟨st1, hst, hlen, hspec⟩ :=
      ih (cur * dims[n]) (dims[n] :: sh) (Int.tdiv bs[n] cur :: st) (by omega) (by omega)
        hc1 hmax2
    refine ⟨st1 ++ [Int.tdiv bs[n] cur], ?_, by simp [hlen], ?_⟩
    · rw [contiguous_loop, hbody]
      simp only [hst, htake, List.append_assoc, List.singleton_append]
    · intro j hj
      have hlt : (dims.take n).length = n := by
        rw [List.length_take]; omega
      by_cases hjn : j < n
      · rw [List.getElem?_append_left (by omega), hspec j hjn, htake,
          List.drop_append_of_le_length (by omega), List.prod_append, List.prod_singleton]
        have e : cur * dims[n] * ((dims.take n).drop (j + 1)).prod
            = cur * (((dims.take n).drop (j + 1)).prod * dims[n]) := by ring
        rw [e]
      · have hj' : j = n := by omega
        subst hj'
        rw [List.getElem?_append_right (by omega), hlen]
        have hnil : (List.take (j + 1) dims).drop (j + 1) = [] :=
          List.drop_eq_nil_of_le (by rw [List.length_take]; omega)
        rw [hnil]
        simp [List.getD_eq_getElem?_getD, List.getElem?_eq_getElem hi2]

end Pyccel

/-! ## Theorems: `get_strides_and_shape_from_numpy_array` -/

namespace Pyccel

/-- With no zero extent, the product of the non-zero extents is the product of all. -/
theorem nonzero_extent_product_eq (dims : List Int) (hd : ∀ d ∈ dims, 1 ≤ d) :
    nonzero_extent_product dims = dims.prod := by
  unfold nonzero_extent_product
  rw [List.filter_eq_self.2]
  intro d hm
  have := hd d hm
  simp; omega

/-- Owned branch: the extents are copied and every stride is `1`. -/
theorem owned_spec (a : PyArrayObject) (hbase : a.base = none)
    (hlen : a.dimensions.length = a.nd) :
    get_strides_and_shape_from_numpy_array a
      = some (a.dimensions, List.replicate a.nd 1) := by
  unfold get_strides_and_shape_from_numpy_array
  rw [hbase]
  simp only
  rw [owned_loop_spec a.dimensions a.nd 0 (by omega), List.drop_zero, ← hlen, List.take_length]

/-- View branches, all extents at least one: every division is defined, the extents
are copied, and `strides[i]` is the byte stride of dimension `i` divided by
`current_stride_at a i`. -/
theorem view_spec (a : PyArrayObject) (hwf : WellFormed a) (hbase : a.base ≠ none)
    (hd : ∀ d ∈ a.dimensions, 1 ≤ d) :
    ∃ st, get_strides_and_shape_from_numpy_array a = some (a.dimensions, st) ∧
      st.length = a.nd ∧
      ∀ i, i < a.nd →
        st[i]? = some (Int.tdiv (a.strides.getD i 0) (current_stride_at a i)) := by
  obtain ⟨hl1, hl2, hsz, _, hmax⟩ := hwf
  rw [nonzero_extent_product_eq _ hd] at hmax
  unfold get_strides_and_shape_from_numpy_array
  cases hb : a.base with
  | none => exact absurd hb hbase
  | some b =>
    simp only
    by_cases hc : PyArray_CHKFLAGS a NPY_ARRAY_C_CONTIGUOUS = true
    · rw [if_pos hc]
      have htake : a.dimensions.take a.nd = a.dimensions := by
        rw [← hl1, List.take_length]
      obtain ⟨st, h1, h2, h3⟩ := contiguous_loop_spec a.dimensions a.strides hd a.nd
        a.itemsize [] [] (by omega) (by omega) hsz (by rw [htake]; exact hmax)
      refine ⟨st, ?_, h2, ?_⟩
      · rw [h1, htake]; simp
      · intro i hi
        rw [h3 i hi, htake]
        simp [current_stride_at, hc]
    · rw [if_neg hc]
      obtain ⟨st, h1, h2, h3⟩ := strided_loop_spec a.dimensions a.strides hd a.nd 0
        a.itemsize (by omega) (by omega) hsz (by rw [List.drop_zero]; exact hmax)
      refine ⟨st, ?_, h2, ?_⟩
      · rw [h1, List.drop_zero]
      · intro i hi
        rw [h3 i hi, List.drop_zero]
        simp [current_stride_at, hc]

/-- The divisor `current_stride_at a i` is positive when the element size and all
extents are at least one. -/
theorem current_stride_at_pos (a : PyArrayObject) (hsz : 1 ≤ a.itemsize)
    (hd : ∀ d ∈ a.dimensions, 1 ≤ d) (i : Nat) : 1 ≤ current_stride_at a i := by
  unfold current_stride_at
  have h1 : 1 ≤ (a.dimensions.drop (i + 1)).prod :=
    one_le_prod _ (fun d hm => hd d (List.mem_of_mem_drop hm))
  have h2 : 1 ≤ (a.dimensions.take i).prod :=
    one_le_prod _ (fun d hm => hd d (List.mem_of_mem_take hm))
  split <;> nlinarith

/-- A list of length `n` whose entries are all `1`. -/
theorem eq_replicate_one (st : List Int) (n : Nat) (hlen : st.length = n)
    (h : ∀ i, i < n → st[i]? = some 1) : st = List.replicate n 1 := by
  apply List.ext_getElem?
  intro i
  by_cases hi : i < n
  · rw [h i hi, List.getElem?_replicate]; simp [hi]
  · rw [List.getElem?_eq_none (by omega), List.getElem?_replicate]; simp [hi]

end Pyccel

namespace Pyccel

/-- The loop body is undefined when `current_stride` is zero. -/
theorem view_body_zero (dims bs : List Int) (i : Nat) : view_body dims bs i 0 = none := by
  unfold view_body
  cases dims[i]? <;> cases bs[i]? <;> simp [c_div]

/-- What a defined loop body read and what it leaves in `current_stride`. -/
theorem view_body_some (dims bs : List Int) (i : Nat) (cur s q c : Int)
    (h : view_body dims bs i cur = some (s, q, c)) : dims[i]? = some s ∧ c = cur * s := by
  unfold view_body at h
  cases h1 : dims[i]? with
  | none => simp [h1] at h
  | some s' =>
    cases h2 : bs[i]? with
    | none => simp [h1, h2] at h
    | some b =>
      simp only [h1, h2] at h
      cases h3 : c_div b cur with
      | none => simp [h3] at h
      | some q' =>
        simp only [h3] at h
        by_cases hin : inInt64 (cur * s')
        · simp [c_mul, hin] at h
          obtain ⟨e1, _, e3⟩ := h
          exact ⟨by rw [e1], by rw [← e3, e1]⟩
        · simp [c_mul, hin] at h

/-- Descending loop: a zero extent at an index `k ≥ 1` still to visit makes the loop
undefined. -/
theorem contiguous_loop_zero_extent (dims bs : List Int) :
    ∀ n cur sh st k, 1 ≤ k → k < n → dims[k]? = some 0 →
      contiguous_loop dims bs n cur sh st = none := by
  intro n
  induction n with
  | zero => intro cur sh st k _ h2 _; omega
  | succ n ih =>
    intro cur sh st k h1 h2 hk
    rw [contiguous_loop]
    cases hb : view_body dims bs n cur with
    | none => rfl
    | some r =>
      obtain ⟨s, q, c⟩ := r
      simp only
      obtain ⟨e1, e2⟩ := view_body_some dims bs n cur s q c hb
      by_cases hkn : k = n
      · subst hkn
        rw [hk] at e1
        have hs : s = 0 := by injection e1 with e; exact e.symm
        have hc : c = 0 := by rw [e2, hs, mul_zero]
        obtain ⟨m, hm⟩ : ∃ m, k = m + 1 := ⟨k - 1, by omega⟩
        rw [hm, hc, contiguous_loop, view_body_zero]
      · exact ih c _ _ k h1 (by omega) hk

/-- Ascending loop: a zero extent at an index that is not the last one to visit makes
the loop undefined. -/
theorem strided_loop_zero_extent (dims bs : List Int) :
    ∀ n i cur k, i ≤ k → k + 1 < i + n → dims[k]? = some 0 →
      strided_loop dims bs n i cur = none := by
  intro n
  induction n with
  | zero => intro i cur k h1 h2 _; omega
  | succ n ih =>
    intro i cur k h1 h2 hk
    rw [strided_loop]
    cases hb : view_body dims bs i cur with
    | none => rfl
    | some r =>
      obtain ⟨s, q, c⟩ := r
      simp only
      obtain ⟨e1, e2⟩ := view_body_some dims bs i cur s q c hb
      by_cases hki : k = i
      · subst hki
        rw [hk] at e1
        have hs : s = 0 := by injection e1 with e; exact e.symm
        have hc : c = 0 := by rw [e2, hs, mul_zero]
        obtain ⟨m, hm⟩ : ∃ m, n = m + 1 := ⟨n - 1, by omega⟩
        rw [hm, hc, strided_loop, view_body_zero]
      · rw [ih (i + 1) c k (by omega) (by omega) hk]

end Pyccel

namespace Pyccel

/-- Divisors of the ascending loop when all extents are at least one. -/
theorem strided_divisors_spec (dims bs : List Int) (hd : ∀ d ∈ dims, 1 ≤ d) :
    ∀ k i cur, i + k = dims.length → i + k = bs.length → 1 ≤ cur →
      cur * (dims.drop i).prod ≤ INT64_MAX →
      ∃ ds, strided_divisors dims bs k i cur = some ds ∧ ds.length = k ∧
        ∀ j, j < k → ds[j]? = some (cur * ((dims.drop i).take j).prod) := by
  intro k
  induction k with
  | zero =>
    intro i cur _ _ _ _
    exact ⟨[], rfl, rfl, fun j hj => by omega⟩
  | succ k ih =>
    intro i cur h1 h2 hcur hmax
    have hi : i < dims.length := by omega
    have hi2 : i < bs.length := by omega
    have hdrop := List.drop_eq_getElem_cons hi
    have hdi : 1 ≤ dims[i] := hd _ (List.getElem_mem hi)
    have hrest : 1 ≤ (dims.drop (i + 1)).prod :=
      one_le_prod _ (fun d hm => hd d (List.mem_of_mem_drop hm))
    rw [hdrop, List.prod_cons] at hmax
    have hmax2 : cur * dims[i] * (dims.drop (i + 1)).prod ≤ INT64_MAX := by
      rw [mul_assoc]; exact hmax
    have hc1 : 1 ≤ cur * dims[i] := by nlinarith
    have hle : cur * dims[i] ≤ INT64_MAX := by nlinarith
    have hin : inInt64 (cur * dims[i]) := by
      unfold inInt64 INT64_MIN; constructor <;> omega
    have hbody := view_body_ok dims bs i cur dims[i] bs[i]
      (List.getElem?_eq_getElem hi) (List.getElem?_eq_getElem hi2) hcur hin
    obtain ⟨ds, hds, hlen, hspec⟩ := ih (i + 1) (cur * dims[i]) (by omega) (by omega) hc1 hmax2
    refine ⟨cur :: ds, ?_, by simp [hlen], ?_⟩
    · rw [strided_divisors, hbody]
      simp only [hds]
    · intro j hj
      rw [hdrop]
      cases j with
      | zero => simp
      | succ j =>
        rw [List.getElem?_cons_succ, hspec j (by omega), List.take_succ_cons, List.prod_cons,
          mul_assoc]

/-- Divisors of the descending loop when all extents are at least one. -/
theorem contiguous_divisors_spec (dims bs : List Int) (hd : ∀ d ∈ dims, 1 ≤ d) :
    ∀ n cur acc, n ≤ dims.length → n ≤ bs.length → 1 ≤ cur →
      cur * (dims.take n).prod ≤ INT64_MAX →
      ∃ ds, contiguous_divisors dims bs n cur acc = some (ds ++ acc) ∧ ds.length = n ∧
        ∀ j, j < n → ds[j]? = some (cur * ((dims.take n).drop (j + 1)).prod) := by
  intro n
  induction n with
  | zero =>
    intro cur acc _ _ _ _
    exact ⟨[], rfl, rfl, fun j hj => by omega⟩
  | succ n ih =>
    intro cur acc h1 h2 hcur hmax
    have hi : n < dims.length := by omega
    have hi2 : n < bs.length := by omega
    have htake : dims.take (n + 1) = dims.take n ++ [dims[n]] := by
      rw [List.take_succ, List.getElem?_eq_getElem hi]; rfl
    have hdi : 1 ≤ dims[n] := hd _ (List.getElem_mem hi)
    have hrest : 1 ≤ (dims.take n).prod :=
      one_le_prod _ (fun d hm => hd d (List.mem_of_mem_take hm))
    rw [htake, List.prod_append, List.prod_singleton] at hmax
    have hmax2 : cur * dims[n] * (dims.take n).prod ≤ INT64_MAX := by
      have e : cur * dims[n] * (dims.take n).prod = cur * ((dims.take n).prod * dims[n]) := by
        ring
      rw [e]; exact hmax
    have hc1 : 1 ≤ cur * dims[n] := by nlinarith
    have hle : cur * dims[n] ≤ INT64_MAX := by nlinarith
    have hin : inInt64 (cur * dims[n]) := by
      unfold inInt64 INT64_MIN; constructor <;> omega
    have hbody := view_body_ok dims bs n cur dims[n] bs[n]
      (List.getElem?_eq_getElem hi) (List.getElem?_eq_getElem hi2) hcur hin
    obtain ⟨ds, hds, hlen, hspec⟩ :=
      ih (cur * dims[n]) (cur :: acc) (by omega) (by omega) hc1 hmax2
    refine ⟨ds ++ [cur], ?_, by simp [hlen], ?_⟩
    · rw [contiguous_divisors, hbody]
      simp only [hds, List.append_assoc, List.singleton_append]
    · intro j hj
      have hlt : (dims.take n).length = n := by
        rw [List.length_take]; omega
      by_cases hjn : j < n
      · rw [List.getElem?_append_left (by omega), hspec j hjn, htake,
          List.drop_append_of_le_length (by omega), List.prod_append, List.prod_singleton]
        have e : cur * dims[n] * ((dims.take n).drop (j + 1)).prod
            = cur * (((dims.take n).drop (j + 1)).prod * dims[n]) := by ring
        rw [e]
      · have hj' : j = n := by omega
        subst hj'
        rw [List.getElem?_append_right (by omega), hlen]
        have hnil : (List.take (j + 1) dims).drop (j + 1) = [] :=
          List.drop_eq_nil_of_le (by rw [List.length_take]; omega)
        rw [hnil]
        simp

/-- View branches, all extents at least one: the divisor used at index `i` is
`current_stride_at a i`. -/
theorem view_divisors_spec (a : PyArrayObject) (hwf : WellFormed a)
    (hd : ∀ d ∈ a.dimensions, 1 ≤ d) :
    ∃ ds, view_divisors a = some ds ∧ ds.length = a.nd ∧
      ∀ i, i < a.nd → ds[i]? = some (current_stride_at a i) := by
  obtain ⟨hl1, hl2, hsz, _, hmax⟩ := hwf
  rw [nonzero_extent_product_eq _ hd] at hmax
  unfold view_divisors
  by_cases hc : PyArray_CHKFLAGS a NPY_ARRAY_C_CONTIGUOUS = true
  · rw [if_pos hc]
    have htake : a.dimensions.take a.nd = a.dimensions := by
      rw [← hl1, List.take_length]
    obtain ⟨ds, h1, h2, h3⟩ := contiguous_divisors_spec a.dimensions a.strides hd a.nd
      a.itemsize [] (by omega) (by omega) hsz (by rw [htake]; exact hmax)
    refine ⟨ds, by rw [h1]; simp, h2, fun i hi => ?_⟩
    rw [h3 i hi, htake]
    simp [current_stride_at, hc]
  · rw [if_neg hc]
    obtain ⟨ds, h1, h2, h3⟩ := strided_divisors_spec a.dimensions a.strides hd a.nd 0
      a.itemsize (by omega) (by omega) hsz (by rw [List.drop_zero]; exact hmax)
    refine ⟨ds, h1, h2, fun i hi => ?_⟩
    rw [h3 i hi, List.drop_zero]
    simp [current_stride_at, hc]

end Pyccel

/-! ## Claims about `get_strides_and_shape_from_numpy_array` -/

namespace Pyccel

/-- C2 (as stated, refuted): describing the array that `to_pyarray` builds for shape
`[3, 4]`, row-major order and `release_memory = false` returns the strides `[1, 1]`,
not the dense row-major strides `[4, 1]`. -/
theorem owned_strides_not_row_major :
    (to_pyarray dense_host 2 12 5 [3, 4] true false).bind
        get_strides_and_shape_from_numpy_array = some ([3, 4], [1, 1]) ∧
    (to_pyarray dense_host 2 12 5 [3, 4] true false).bind
        get_strides_and_shape_from_numpy_array ≠ some ([3, 4], [4, 1]) := by
  decide

/-- C2 (amended): for every array that owns its buffer (null base) with `nd` dimensions,
the function returns the extents as shape and the stride `1` for every dimension,
whatever the shape; in particular, describing the array that `to_pyarray` builds for
shape `[3, 4]`, row-major order and `release_memory = false` returns strides `[1, 1]`. -/
theorem owned_strides_all_one (a : PyArrayObject) (hbase : a.base = none)
    (hlen : a.dimensions.length = a.nd) :
    get_strides_and_shape_from_numpy_array a
        = some (a.dimensions, List.replicate a.nd 1) ∧
    ∀ (host : Host) (typenum data : Nat),
      (to_pyarray host 2 typenum data [3, 4] true false).bind
        get_strides_and_shape_from_numpy_array = some ([3, 4], [1, 1]) :=
  ⟨owned_spec a hbase hlen, fun _ _ _ => rfl⟩

/-- C2 (amended), instance: an owned 3 × 4 array. -/
theorem owned_strides_all_one_witness :
    (owned_array.base = none ∧ owned_array.dimensions.length = owned_array.nd) ∧
    get_strides_and_shape_from_numpy_array owned_array = some ([3, 4], [1, 1]) :=
  ⟨by decide, (owned_strides_all_one owned_array (by decide) (by decide)).1⟩

/-- C3 (as stated, refuted): for the column-major 2 × 3 view, which is not marked
row-major-contiguous, the function returns the strides `[1, 1]`, whereas the byte stride
of dimension 1 converted to element units is `16 / 8 = 2`. -/
theorem column_major_view_strides :
    WellFormed column_major_view ∧ column_major_view.base ≠ none ∧
    PyArray_CHKFLAGS column_major_view NPY_ARRAY_C_CONTIGUOUS = false ∧
    get_strides_and_shape_from_numpy_array column_major_view = some ([2, 3], [1, 1]) ∧
    Int.tdiv (column_major_view.strides.getD 1 0) column_major_view.itemsize = 2 := by
  decide

/-- C3 (amended): for every view that is not marked row-major-contiguous (element size
and all extents at least one), the function returns, for every dimension `i < nd`,
`strides[i]` equal to the byte stride of dimension `i` divided, with truncation, by the
element size times the product of the extents of the dimensions before `i`; for `i = 0`
this is the byte stride of dimension 0 divided by the element size. -/
theorem strided_view_strides (a : PyArrayObject) (hwf : WellFormed a)
    (hbase : a.base ≠ none) (hc : PyArray_CHKFLAGS a NPY_ARRAY_C_CONTIGUOUS = false)
    (hd : ∀ d ∈ a.dimensions, 1 ≤ d) :
    ∃ st, get_strides_and_shape_from_numpy_array a = some (a.dimensions, st) ∧
      st.length = a.nd ∧
      (∀ i, i < a.nd →
        st[i]? = some (Int.tdiv (a.strides.getD i 0)
          (a.itemsize * (a.dimensions.take i).prod))) ∧
      (0 < a.nd → st[0]? = some (Int.tdiv (a.strides.getD 0 0) a.itemsize)) := by
  obtain ⟨st, h1, h2, h3⟩ := view_spec a hwf hbase hd
  refine ⟨st, h1, h2, fun i hi => ?_, fun h0 => ?_⟩
  · rw [h3 i hi]
    simp [current_stride_at, hc]
  · rw [h3 0 h0]
    simp [current_stride_at, hc]

/-- C3 (amended), instance: the column-major 2 × 3 view. -/
theorem strided_view_strides_witness :
    (WellFormed column_major_view ∧ column_major_view.base ≠ none ∧
      PyArray_CHKFLAGS column_major_view NPY_ARRAY_C_CONTIGUOUS = false ∧
      ∀ d ∈ column_major_view.dimensions, 1 ≤ d) ∧
    ∃ st, get_strides_and_shape_from_numpy_array column_major_view
        = some (column_major_view.dimensions, st) ∧
      st.length = column_major_view.nd ∧
      (∀ i, i < column_major_view.nd →
        st[i]? = some (Int.tdiv (column_major_view.strides.getD i 0)
          (column_major_view.itemsize * (column_major_view.dimensions.take i).prod))) ∧
      (0 < column_major_view.nd →
        st[0]? = some (Int.tdiv (column_major_view.strides.getD 0 0)
          column_major_view.itemsize)) :=
  ⟨by decide, strided_view_strides column_major_view (by decide) (by decide) (by decide)
    (by decide)⟩

/-- C4 (as stated, refuted): the 1 × 4 slice with byte strides 64 and 8 is a view marked
row-major-contiguous; the function returns the strides `[2, 1]` for it, but `[1, 1]`
for an owned array of the same shape. -/
theorem single_row_view_strides :
    WellFormed single_row_view ∧ single_row_view.base ≠ none ∧
    PyArray_CHKFLAGS single_row_view NPY_ARRAY_C_CONTIGUOUS = true ∧
    get_strides_and_shape_from_numpy_array single_row_view = some ([1, 4], [2, 1]) ∧
    get_strides_and_shape_from_numpy_array { single_row_view with base := none }
      = some ([1, 4], [1, 1]) := by
  decide

/-- C4 (amended): for every view that is marked row-major-contiguous (element size and
all extents at least one), the function returns `strides[i]` equal to the byte stride
of dimension `i` divided, with truncation, by the element size times the product of the
extents of the dimensions after `i`; when the byte strides are the dense row-major ones,
this is what it returns for an owned array of the same shape. -/
theorem contiguous_view_strides (a : PyArrayObject) (hwf : WellFormed a)
    (hbase : a.base ≠ none) (hc : PyArray_CHKFLAGS a NPY_ARRAY_C_CONTIGUOUS = true)
    (hd : ∀ d ∈ a.dimensions, 1 ≤ d) :
    ∃ st, get_strides_and_shape_from_numpy_array a = some (a.dimensions, st) ∧
      st.length = a.nd ∧
      (∀ i, i < a.nd →
        st[i]? = some (Int.tdiv (a.strides.getD i 0)
          (a.itemsize * (a.dimensions.drop (i + 1)).prod))) ∧
      ((∀ i, i < a.nd →
          a.strides[i]? = some (a.itemsize * (a.dimensions.drop (i + 1)).prod)) →
        get_strides_and_shape_from_numpy_array a
          = get_strides_and_shape_from_numpy_array { a with base := none }) := by
  obtain ⟨st, h1, h2, h3⟩ := view_spec a hwf hbase hd
  have hcs : ∀ i, current_stride_at a i = a.itemsize * (a.dimensions.drop (i + 1)).prod := by
    intro i; simp [current_stride_at, hc]
  refine ⟨st, h1, h2, fun i hi => ?_, fun hdense => ?_⟩
  · rw [h3 i hi, hcs]
  · rw [owned_spec { a with base := none } rfl hwf.1, h1]
    have : st = List.replicate a.nd 1 := by
      apply eq_replicate_one st a.nd h2
      intro i hi
      have hpos := current_stride_at_pos a hwf.2.2.1 hd i
      rw [h3 i hi, List.getD_eq_getElem?_getD, hdense i hi, ← hcs i]
      simp only [Option.getD_some]
      rw [Int.tdiv_self (by omega)]
    rw [this]

/-- C4 (amended), instance: the dense row-major 3 × 4 view is described like the owned
3 × 4 array. -/
theorem contiguous_view_strides_witness :
    (WellFormed row_major_view ∧ row_major_view.base ≠ none ∧
      PyArray_CHKFLAGS row_major_view NPY_ARRAY_C_CONTIGUOUS = true ∧
      (∀ d ∈ row_major_view.dimensions, 1 ≤ d) ∧
      ∀ i, i < row_major_view.nd →
        row_major_view.strides[i]?
          = some (row_major_view.itemsize * (row_major_view.dimensions.drop (i + 1)).prod)) ∧
    get_strides_and_shape_from_numpy_array row_major_view
      = get_strides_and_shape_from_numpy_array { row_major_view with base := none } :=
  ⟨by decide,
    (contiguous_view_strides row_major_view (by decide) (by decide) (by decide)
      (by decide)).elim (fun _ h => h.2.2.2 (by decide))⟩

end Pyccel

namespace Pyccel

/-- C9: for every view whose extents are all at least one and whose byte strides are the
dense layout of its shape (row-major when the view is marked row-major-contiguous,
column-major when it is not), the function returns the stride `1` for every dimension,
which is also what it returns for the same array without a base. -/
theorem dense_view_strides_one (a : PyArrayObject) (hwf : WellFormed a)
    (hbase : a.base ≠ none) (hd : ∀ d ∈ a.dimensions, 1 ≤ d)
    (hdense : ∀ i, i < a.nd →
      a.strides[i]? = some (a.itemsize *
        (if PyArray_CHKFLAGS a NPY_ARRAY_C_CONTIGUOUS then (a.dimensions.drop (i + 1)).prod
         else (a.dimensions.take i).prod))) :
    get_strides_and_shape_from_numpy_array a
        = some (a.dimensions, List.replicate a.nd 1) ∧
    get_strides_and_shape_from_numpy_array { a with base := none }
        = some (a.dimensions, List.replicate a.nd 1) := by
  obtain ⟨st, h1, h2, h3⟩ := view_spec a hwf hbase hd
  refine ⟨?_, owned_spec { a with base := none } rfl hwf.1⟩
  have : st = List.replicate a.nd 1 := by
    apply eq_replicate_one st a.nd h2
    intro i hi
    have hpos := current_stride_at_pos a hwf.2.2.1 hd i
    have hs : a.strides[i]? = some (current_stride_at a i) := hdense i hi
    rw [h3 i hi, List.getD_eq_getElem?_getD, hs]
    simp only [Option.getD_some]
    rw [Int.tdiv_self (by omega)]
  rw [h1, this]

/-- C9, instances: the dense row-major 3 × 4 view and the dense column-major 2 × 3
view. -/
theorem dense_view_strides_one_witness :
    (WellFormed row_major_view ∧ row_major_view.base ≠ none ∧
      (∀ d ∈ row_major_view.dimensions, 1 ≤ d) ∧
      PyArray_CHKFLAGS row_major_view NPY_ARRAY_C_CONTIGUOUS = true ∧
      PyArray_CHKFLAGS column_major_view NPY_ARRAY_C_CONTIGUOUS = false) ∧
    (get_strides_and_shape_from_numpy_array row_major_view = some ([3, 4], [1, 1]) ∧
      get_strides_and_shape_from_numpy_array { row_major_view with base := none }
        = some ([3, 4], [1, 1])) ∧
    (get_strides_and_shape_from_numpy_array column_major_view = some ([2, 3], [1, 1]) ∧
      get_strides_and_shape_from_numpy_array { column_major_view with base := none }
        = some ([2, 3], [1, 1])) :=
  ⟨by decide,
    dense_view_strides_one row_major_view (by decide) (by decide) (by decide) (by decide),
    dense_view_strides_one column_major_view (by decide) (by decide) (by decide) (by decide)⟩

/-- C10: for every view with element size at least one (part of `WellFormed`) and every
extent at least one, all `nd` divisions `np_strides[i] / current_stride` are defined:
the divisor at index `i` (entry `i` of `view_divisors`) is the element size times the
product of the extents already traversed and is not zero, and the function returns
`nd` shape entries and `nd` stride entries. The
condition on the extents is needed: a zero extent traversed before another dimension
makes the next divisor zero, and the function is then undefined. -/
theorem view_divisions_defined :
    (∀ a : PyArrayObject, WellFormed a → a.base ≠ none → (∀ d ∈ a.dimensions, 1 ≤ d) →
      ∃ sh st ds, get_strides_and_shape_from_numpy_array a = some (sh, st) ∧
        view_divisors a = some ds ∧
        sh.length = a.nd ∧ st.length = a.nd ∧ ds.length = a.nd ∧
        ∀ i, i < a.nd →
          ds[i]? = some (current_stride_at a i) ∧ current_stride_at a i ≠ 0 ∧
          st[i]? = some (Int.tdiv (a.strides.getD i 0) (current_stride_at a i))) ∧
    (∀ (a : PyArrayObject) (k : Nat), a.base ≠ none → a.dimensions[k]? = some 0 →
      (if PyArray_CHKFLAGS a NPY_ARRAY_C_CONTIGUOUS then 1 ≤ k ∧ k < a.nd
       else k + 1 < a.nd) →
      get_strides_and_shape_from_numpy_array a = none) := by
  constructor
  · intro a hwf hbase hd
    obtain ⟨st, h1, h2, h3⟩ := view_spec a hwf hbase hd
    obtain ⟨ds, g1, g2, g3⟩ := view_divisors_spec a hwf hd
    refine ⟨a.dimensions, st, ds, h1, g1, hwf.1, h2, g2, fun i hi => ⟨g3 i hi, ?_, h3 i hi⟩⟩
    have := current_stride_at_pos a hwf.2.2.1 hd i
    omega
  · intro a k hbase hk hpos
    unfold get_strides_and_shape_from_numpy_array
    cases hb : a.base with
    | none => exact absurd hb hbase
    | some b =>
      simp only
      by_cases hc : PyArray_CHKFLAGS a NPY_ARRAY_C_CONTIGUOUS = true
      · rw [if_pos hc] at hpos ⊢
        exact contiguous_loop_zero_extent _ _ _ _ _ _ k hpos.1 hpos.2 hk
      · rw [if_neg hc] at hpos ⊢
        exact strided_loop_zero_extent _ _ _ _ _ k (Nat.zero_le k) (by omega) hk

/-- C10, instances: the dense row-major 3 × 4 view is described; the empty 3 × 0 slice
is not. -/
theorem view_divisions_defined_witness :
    (WellFormed row_major_view ∧ row_major_view.base ≠ none ∧
      (∀ d ∈ row_major_view.dimensions, 1 ≤ d) ∧
      empty_slice_view.base ≠ none ∧ empty_slice_view.dimensions[1]? = some 0 ∧
      (if PyArray_CHKFLAGS empty_slice_view NPY_ARRAY_C_CONTIGUOUS
        then 1 ≤ 1 ∧ 1 < empty_slice_view.nd else 1 + 1 < empty_slice_view.nd)) ∧
    (∃ sh st ds, get_strides_and_shape_from_numpy_array row_major_view = some (sh, st) ∧
        view_divisors row_major_view = some ds ∧
        sh.length = row_major_view.nd ∧ st.length = row_major_view.nd ∧
        ds.length = row_major_view.nd ∧
        ∀ i, i < row_major_view.nd →
          ds[i]? = some (current_stride_at row_major_view i) ∧
          current_stride_at row_major_view i ≠ 0 ∧
          st[i]? = some (Int.tdiv (row_major_view.strides.getD i 0)
            (current_stride_at row_major_view i))) ∧
    get_strides_and_shape_from_numpy_array empty_slice_view = none :=
  ⟨by decide,
    view_divisions_defined.1 row_major_view (by decide) (by decide) (by decide),
    view_divisions_defined.2 empty_slice_view 1 (by decide) (by decide) (by decide)⟩

/-- C5 (failing input): the empty slice `x[:, :0]` is a well-formed view of shape
3 × 0. The descending loop writes `shape[1] = 0`, sets `current_stride` to `0` and then
divides by it at index 0: the function is undefined there and `strides[0]` is never
written, while the same array without a base is described as `([3, 0], [1, 1])`. -/
theorem empty_slice_view_undefined :
    WellFormed empty_slice_view ∧ empty_slice_view.base ≠ none ∧
    PyArray_CHKFLAGS empty_slice_view NPY_ARRAY_C_CONTIGUOUS = true ∧
    view_body empty_slice_view.dimensions empty_slice_view.strides 1
      empty_slice_view.itemsize = some (0, 1, 0) ∧
    view_body empty_slice_view.dimensions empty_slice_view.strides 0 0 = none ∧
    get_strides_and_shape_from_numpy_array empty_slice_view = none ∧
    get_strides_and_shape_from_numpy_array { empty_slice_view with base := none }
      = some ([3, 0], [1, 1]) := by
  decide

end Pyccel

/-! ## Claims about `to_pyarray` and `capsule_cleanup` -/

namespace Pyccel

/-- The array `to_pyarray` returns when `shape` has at least `nd` entries. -/
theorem to_pyarray_eq (host : Host) (nd typenum data : Nat) (shape : List Int)
    (c_order release_memory : Bool) (hnd : nd ≤ shape.length) :
    to_pyarray host nd typenum data shape c_order release_memory
      = some { nd := nd, dimensions := shape.take nd,
               strides := host.fill_strides nd (shape.take nd) (host.elsize typenum)
                 (to_pyarray_FLAGS nd c_order),
               itemsize := host.elsize typenum, flags := to_pyarray_FLAGS nd c_order,
               base := if release_memory then
                   some (BaseObject.capsule
                     (PyCapsule_New data none (some Destructor.capsule_cleanup)))
                 else none,
               data := data } := by
  unfold to_pyarray
  rw [if_pos hnd]
  cases release_memory <;> rfl

/-- C6: the flags `to_pyarray` requests for the new array. For `nd = 1` both contiguity
flags are set, for either value of `c_order`; for `nd ≠ 1` exactly one is set,
row-major-contiguous when `c_order` is true and column-major-contiguous when it is
false; the writable flag is set in every case. -/
theorem to_pyarray_flags (host : Host) (nd typenum data : Nat) (shape : List Int)
    (c_order release_memory : Bool) (hnd : nd ≤ shape.length) :
    ∃ arr, to_pyarray host nd typenum data shape c_order release_memory = some arr ∧
      arr.flags = to_pyarray_FLAGS nd c_order ∧
      PyArray_CHKFLAGS arr NPY_ARRAY_WRITEABLE = true ∧
      (nd = 1 → PyArray_CHKFLAGS arr NPY_ARRAY_C_CONTIGUOUS = true ∧
        PyArray_CHKFLAGS arr NPY_ARRAY_F_CONTIGUOUS = true) ∧
      (nd ≠ 1 → PyArray_CHKFLAGS arr NPY_ARRAY_C_CONTIGUOUS = c_order ∧
        PyArray_CHKFLAGS arr NPY_ARRAY_F_CONTIGUOUS = !c_order) := by
  refine ⟨_, to_pyarray_eq host nd typenum data shape c_order release_memory hnd, rfl, ?_, ?_, ?_⟩
  · unfold PyArray_CHKFLAGS to_pyarray_FLAGS
    by_cases h : nd = 1
    · simp only [h, if_true]; decide
    · cases c_order <;> simp only [h, if_false] <;> decide
  · intro h
    unfold PyArray_CHKFLAGS to_pyarray_FLAGS
    simp only [h, if_true]
    decide
  · intro h
    unfold PyArray_CHKFLAGS to_pyarray_FLAGS
    cases c_order <;> simp only [h, if_false] <;> decide

/-- C6, instances: a one-dimensional array requested in column-major order and a
two-dimensional one requested in row-major order. -/
theorem to_pyarray_flags_witness :
    ((1 : Nat) ≤ [5].length ∧ (2 : Nat) ≤ [3, 4].length ∧ (2 : Nat) ≠ 1) ∧
    (∃ arr, to_pyarray dense_host 1 12 5 [5] false false = some arr ∧
      arr.flags = to_pyarray_FLAGS 1 false ∧
      PyArray_CHKFLAGS arr NPY_ARRAY_WRITEABLE = true ∧
      ((1 : Nat) = 1 → PyArray_CHKFLAGS arr NPY_ARRAY_C_CONTIGUOUS = true ∧
        PyArray_CHKFLAGS arr NPY_ARRAY_F_CONTIGUOUS = true) ∧
      ((1 : Nat) ≠ 1 → PyArray_CHKFLAGS arr NPY_ARRAY_C_CONTIGUOUS = false ∧
        PyArray_CHKFLAGS arr NPY_ARRAY_F_CONTIGUOUS = !false)) ∧
    (∃ arr, to_pyarray dense_host 2 12 5 [3, 4] true false = some arr ∧
      arr.flags = to_pyarray_FLAGS 2 true ∧
      PyArray_CHKFLAGS arr NPY_ARRAY_WRITEABLE = true ∧
      ((2 : Nat) = 1 → PyArray_CHKFLAGS arr NPY_ARRAY_C_CONTIGUOUS = true ∧
        PyArray_CHKFLAGS arr NPY_ARRAY_F_CONTIGUOUS = true) ∧
      ((2 : Nat) ≠ 1 → PyArray_CHKFLAGS arr NPY_ARRAY_C_CONTIGUOUS = true ∧
        PyArray_CHKFLAGS arr NPY_ARRAY_F_CONTIGUOUS = !true)) :=
  ⟨by decide, to_pyarray_flags dense_host 1 12 5 [5] false false (by decide),
    to_pyarray_flags dense_host 2 12 5 [3, 4] true false (by decide)⟩

/-- C7: `to_pyarray` registers a release hook exactly when `release_memory` is set. When
set, the base of the returned array is a capsule that stores the data pointer and has
`capsule_cleanup` as release function; `capsule_cleanup` reads that pointer back and
frees it, so one run of the release function on a heap where the buffer is allocated
removes exactly one allocation of the buffer and nothing else. When not set, the base is
absent. -/
theorem to_pyarray_release_hook (host : Host) (nd typenum data : Nat) (shape : List Int)
    (c_order release_memory : Bool) (hnd : nd ≤ shape.length) :
    ∃ arr, to_pyarray host nd typenum data shape c_order release_memory = some arr ∧
      (arr.base ≠ none ↔ release_memory = true) ∧
      (release_memory = true →
        ∃ cap, arr.base = some (BaseObject.capsule cap) ∧ cap.pointer = data ∧
          cap.destructor = some Destructor.capsule_cleanup ∧
          PyCapsule_GetPointer cap none = some data ∧
          ∀ h : Heap, data ∈ h →
            capsule_cleanup cap h = some (h.erase data) ∧
            cap.destroy h = some (h.erase data) ∧
            (h.erase data).count data + 1 = h.count data) ∧
      (release_memory = false → arr.base = none) := by
  refine ⟨_, to_pyarray_eq host nd typenum data shape c_order release_memory hnd, ?_, ?_, ?_⟩
  · cases release_memory <;> simp
  · intro hr
    refine ⟨PyCapsule_New data none (some Destructor.capsule_cleanup), by simp [hr], rfl, rfl,
      by simp [PyCapsule_GetPointer, PyCapsule_New], ?_⟩
    intro h hmem
    have hc : capsule_cleanup (PyCapsule_New data none (some Destructor.capsule_cleanup)) h
        = some (h.erase data) := by
      simp [capsule_cleanup, PyCapsule_GetPointer, PyCapsule_New, free, hmem]
    refine ⟨hc, ?_, ?_⟩
    · simp only [PyCapsule.destroy, PyCapsule_New, Destructor.call]
      exact hc
    · rw [List.count_erase_self]
      have : 0 < h.count data := List.count_pos_iff.2 hmem
      omega
  · intro hr
    simp [hr]

/-- C7, instances: ownership transferred for the buffer `5` on a heap holding the
blocks `4, 5, 6`, and ownership not transferred. -/
theorem to_pyarray_release_hook_witness :
    ((2 : Nat) ≤ [3, 4].length) ∧
    (∃ arr, to_pyarray dense_host 2 12 5 [3, 4] true true = some arr ∧
      ∃ cap, arr.base = some (BaseObject.capsule cap) ∧ cap.destroy [4, 5, 6] = some [4, 6]) ∧
    (∃ arr, to_pyarray dense_host 2 12 5 [3, 4] true false = some arr ∧ arr.base = none) :=
  ⟨by decide,
    (to_pyarray_release_hook dense_host 2 12 5 [3, 4] true true (by decide)).elim
      (fun arr h => ⟨arr, h.1, h.2.2.1 rfl |>.elim
        (fun cap hc => ⟨cap, hc.1, (hc.2.2.2.2 [4, 5, 6] (by decide)).2.1⟩)⟩),
    (to_pyarray_release_hook dense_host 2 12 5 [3, 4] true false (by decide)).elim
      (fun arr h => ⟨arr, h.1, h.2.2.2 rfl⟩)⟩

end Pyccel

/-! ## Claims about complex scalar conversion -/

namespace Pyccel

end Pyccel
